import Mathlib

/-!
Shallow embedding of the Mastermind linear-programming notebook
(class Mastermind with methods add_restr and new_guess) together with the
feasibility search engine described by its specification.

The notebook delegates all solving to an external MIP solver (OR-Tools CBC);
the specification replaces that external dependency with a self-contained
backtracking search over assignments, returning the lexicographically
smallest feasible assignment.  The search engine below is therefore modelled
from the spec, while the constraint store (add_restr) and the suggestion
extraction loop of new_guess are embedded directly from the source.
-/

/-- State of the source's Mastermind object as far as the constraint family
is concerned: the alphabet size d (self.digits), the code length n
(self.length), and the list of accumulated guess/match-count restrictions
(the restrictions added by add_restr on top of the fixed column
constraints, which are implicit in the assignment view). -/
structure Mastermind where
  digits : Nat
  length : Nat
  restrs : List (List Nat × Int)
deriving DecidableEq, Repr

/-- Number of positions where the two sequences agree, position by position
(exact-position matches only); corresponds to the value of the LP sum
for a restriction when the indicator variables encode the assignment. -/
def countMatches : List Nat → List Nat → Nat
  | a :: as, g :: gs => (if a = g then 1 else 0) + countMatches as gs
  | _, _ => 0

/-- An assignment satisfies a stored restriction when its exact-match count
with the restriction's guess equals the recorded hit count. -/
def satisfies (a : List Nat) (c : List Nat × Int) : Bool :=
  (countMatches a c.1 : Int) == c.2

/-- An assignment satisfies the whole accumulated constraint set. -/
def Mastermind.satAll (m : Mastermind) (a : List Nat) : Bool :=
  m.restrs.all (satisfies a)

/-- Embedding of Mastermind.add_restr from the source: it builds the sum
over j in range(self.length) of X[int(pswd[j])][j] and equates it to hit.
The variable table X is a dict keyed by the symbols 0..d-1, so the call
raises IndexError when pswd is shorter than self.length and KeyError
when one of the first self.length symbols lies outside [0, d-1]; both
propagating exceptions are modelled as none, with nothing stored.
Otherwise the restriction on the first self.length symbols of pswd is
appended unconditionally: the hit count is never validated. -/
def Mastermind.add_restr (m : Mastermind) (pswd : List Nat) (hit : Int) :
    Option Mastermind :=
  if m.length ≤ pswd.length ∧ ∀ x ∈ pswd.take m.length, x < m.digits then
    some { m with restrs := m.restrs ++ [(pswd.take m.length, hit)] }
  else
    none

/-- Result type of the specification's search engine. -/
inductive SearchResult where
  | Found (a : List Nat)
  | NoSolution
  | SearchAborted
deriving DecidableEq, Repr

/-- Modelled from the spec: the backtracking feasibility search of the
Feasibility Search Engine (the source delegates this work to the external
OR-Tools CBC solver, whose algorithm is not part of the repository).
Positions are processed left to right; at each position the symbols
0..d-1 are tried in increasing order; a complete assignment is returned
exactly when the predicate p accepts it.  The result is the first
accepted extension of the partial assignment in lexicographic order. -/
def searchFrom (d : Nat) (p : List Nat → Bool) : Nat → List Nat → Option (List Nat)
  | 0, acc => if p acc then some acc else none
  | n + 1, acc => (List.range d).findSome? fun i => searchFrom d p n (acc ++ [i])

/-- Modelled from the spec: search() reads the full constraint set and
either produces a satisfying assignment or reports infeasibility.  No
node budget is configured, so the SearchAborted outcome never arises. -/
def Mastermind.search (m : Mastermind) : SearchResult :=
  match searchFrom m.digits m.satAll m.length [] with
  | some a => .Found a
  | none => .NoSolution

/-- Outcome of running a fragment of Python code: either a returned value
or a propagating exception. -/
inductive PyOutcome (α : Type) where
  | ret (v : α)
  | exn
deriving DecidableEq

/-- Values the source's new_guess can produce: the suggestion string built
from the solution values, or the Boolean False. -/
inductive GuessVal where
  | str (s : List Nat)
  | bool (b : Bool)
deriving DecidableEq

/-- Embedding of the try/except block of Mastermind.new_guess: whatever the
body (solving plus extraction of solution values) does, a raised
exception is caught by the bare except handler, which returns False. -/
def tryExceptFalse (body : PyOutcome GuessVal) : PyOutcome GuessVal :=
  match body with
  | .ret v => .ret v
  | .exn => .ret (.bool false)

/-- Embedding of the suggestion-building loop of Mastermind.new_guess: for
each position j in range(n), every symbol i in range(d) whose indicator
variable has solution value above 0.5 is appended to the suggestion
(the i += self.digits statement in the source has no effect on a
Python range-based for loop, so no symbol is skipped). -/
def buildSuggestion (x : Nat → Nat → Bool) (d n : Nat) : List Nat :=
  (List.range n).flatMap fun j => (List.range d).filter fun i => x i j

/-- Embedding of the column constraint installed by Mastermind.__init__ for
position j: the solution values of the indicators x[0][j] .. x[d-1][j]
sum to one. -/
def colSumOne (x : Nat → Nat → Bool) (d j : Nat) : Prop :=
  (((List.range d).map fun i => if x i j then 1 else 0).sum : Nat) = 1

/-- Sequential insertion of a list of guess/hit pairs through add_restr,
propagating the first failure. -/
def Mastermind.addAll (m : Mastermind) : List (List Nat × Int) → Option Mastermind
  | [] => some m
  | c :: cs => match m.add_restr c.1 c.2 with
    | some m2 => m2.addAll cs
    | none => none

/-- Modelled from the spec: the constraint-propagation test of the search
engine (step 3 of the spec's algorithm).  For a partial assignment acc
with r positions still unassigned, a restriction can still be met only
if its hit count lies between the matches already fixed by acc and that
number plus r. -/
def boundsOK (restrs : List (List Nat × Int)) (acc : List Nat) (r : Nat) : Bool :=
  restrs.all fun c =>
    ((countMatches acc c.1 : Int) ≤ c.2) && (c.2 ≤ (countMatches acc c.1 : Int) + (r : Int))

/-- Modelled from the spec: the backtracking search with pruning guard g;
a branch whose partial assignment fails the guard is abandoned without
extending it.  Used to settle the exhaustive part of the end-to-end
example without enumerating the full assignment space. -/
def prunedFrom (d : Nat) (g : List Nat → Nat → Bool) (p : List Nat → Bool) :
    Nat → List Nat → Option (List Nat)
  | 0, acc => if p acc then some acc else none
  | n + 1, acc =>
    if g acc (n + 1) then
      (List.range d).findSome? fun i => prunedFrom d g p n (acc ++ [i])
    else
      none

/-- Restrictions of the six-guess Project Euler 185 warm-up instance. -/
def eulerRestrs : List (List Nat × Int) :=
  [([9, 0, 3, 4, 2], 2), ([7, 0, 7, 9, 4], 0), ([3, 9, 4, 5, 8], 2),
   ([3, 4, 1, 0, 9], 1), ([5, 1, 5, 4, 5], 2), ([1, 2, 5, 3, 1], 1)]

example : countMatches [3, 9, 5, 4, 2] [9, 0, 3, 4, 2] = 2 := by decide

example : Mastermind.search ⟨2, 1, [([0], 1), ([0], 0)]⟩ = .NoSolution := by decide

example : Mastermind.search ⟨2, 2, []⟩ = .Found [0, 0] := by decide

example : Mastermind.search ⟨3, 2, [([1, 2], 2)]⟩ = .Found [1, 2] := by decide

theorem countMatches_nil_left (g : List Nat) : countMatches [] g = 0 := by
  cases g <;> rfl

theorem countMatches_nil_right (l : List Nat) : countMatches l [] = 0 := by
  cases l <;> rfl

theorem countMatches_cons (a g : Nat) (as gs : List Nat) :
    countMatches (a :: as) (g :: gs) = (if a = g then 1 else 0) + countMatches as gs := rfl

theorem countMatches_le_length_left :
    ∀ (l g : List Nat), countMatches l g ≤ l.length := by
  intro l
  induction l with
  | nil => intro g; simp [countMatches_nil_left]
  | cons a as ih =>
    intro g
    cases g with
    | nil => simp [countMatches_nil_right]
    | cons b gs =>
      rw [countMatches_cons]
      have h := ih gs
      by_cases hab : a = b <;> simp [hab] <;> omega

theorem countMatches_append :
    ∀ (u v g : List Nat),
      countMatches (u ++ v) g = countMatches u g + countMatches v (g.drop u.length) := by
  intro u
  induction u with
  | nil => intro v g; simp [countMatches_nil_left]
  | cons a as ih =>
    intro v g
    cases g with
    | nil => simp [countMatches_nil_right]
    | cons b gs =>
      simp only [List.cons_append, countMatches_cons, List.length_cons, List.drop_succ_cons]
      rw [ih v gs]
      omega

theorem searchFrom_sound (d : Nat) (p : List Nat → Bool) :
    ∀ (n : Nat) (acc a : List Nat), searchFrom d p n acc = some a →
      p a = true ∧ ∃ suf, a = acc ++ suf ∧ suf.length = n ∧ ∀ x ∈ suf, x < d := by
  intro n
  induction n with
  | zero =>
    intro acc a h
    rw [searchFrom] at h
    by_cases hp : p acc
    · simp [hp] at h
      refine ⟨h ▸ hp, [], by simp [h], rfl, by simp⟩
    · simp [hp] at h
  | succ n ih =>
    intro acc a h
    rw [searchFrom] at h
    obtain ⟨i, hi, hrec⟩ := List.exists_of_findSome?_eq_some h
    obtain ⟨hp, suf, hsuf, hlen, hbound⟩ := ih (acc ++ [i]) a hrec
    refine ⟨hp, i :: suf, by simp [hsuf], by simp [hlen], ?_⟩
    intro x hx
    rcases List.mem_cons.mp hx with hxi | hxs
    · subst hxi; exact List.mem_range.mp hi
    · exact hbound x hxs

theorem searchFrom_none (d : Nat) (p : List Nat → Bool) :
    ∀ (n : Nat) (acc : List Nat), searchFrom d p n acc = none →
      ∀ suf, suf.length = n → (∀ x ∈ suf, x < d) → p (acc ++ suf) = false := by
  intro n
  induction n with
  | zero =>
    intro acc h suf hlen _
    rw [searchFrom] at h
    rw [List.length_eq_zero.mp hlen, List.append_nil]
    by_cases hp : p acc
    · simp [hp] at h
    · simpa using hp
  | succ n ih =>
    intro acc h suf hlen hbound
    rw [searchFrom] at h
    cases suf with
    | nil => simp at hlen
    | cons s suf =>
      have hs : s < d := hbound s (by simp)
      have hrec : searchFrom d p n (acc ++ [s]) = none := by
        exact (List.findSome?_eq_none_iff.mp h) s (List.mem_range.mpr hs)
      have := ih (acc ++ [s]) hrec suf (by simpa using hlen)
        (fun x hx => hbound x (List.mem_cons_of_mem s hx))
      simpa [List.append_assoc] using this

theorem search_found_sound (m : Mastermind) (a : List Nat)
    (h : m.search = .Found a) :
    m.satAll a = true ∧ a.length = m.length ∧ ∀ x ∈ a, x < m.digits := by
  rw [Mastermind.search] at h
  cases hs : searchFrom m.digits m.satAll m.length [] with
  | none => rw [hs] at h; cases h
  | some b =>
    rw [hs] at h
    cases h
    obtain ⟨hp, suf, hsuf, hlen, hbound⟩ := searchFrom_sound _ _ _ _ _ hs
    rw [List.nil_append] at hsuf
    subst hsuf
    exact ⟨hp, hlen, hbound⟩

theorem search_noSolution_of_infeasible (m : Mastermind)
    (hinf : ∀ b, b.length = m.length → (∀ x ∈ b, x < m.digits) → m.satAll b = false) :
    m.search = .NoSolution := by
  rw [Mastermind.search]
  cases hs : searchFrom m.digits m.satAll m.length [] with
  | none => rfl
  | some a =>
    obtain ⟨hp, suf, hsuf, hlen, hbound⟩ := searchFrom_sound _ _ _ _ _ hs
    rw [List.nil_append] at hsuf
    subst hsuf
    rw [hinf a hlen hbound] at hp
    cases hp

theorem search_found_of_feasible (m : Mastermind) (b : List Nat)
    (hlen : b.length = m.length) (hb : ∀ x ∈ b, x < m.digits)
    (hsat : m.satAll b = true) :
    ∃ a, m.search = .Found a := by
  rw [Mastermind.search]
  cases hs : searchFrom m.digits m.satAll m.length [] with
  | none =>
    have := searchFrom_none m.digits m.satAll m.length [] hs b hlen hb
    rw [List.nil_append, hsat] at this
    cases this
  | some a => exact ⟨a, rfl⟩

theorem searchFrom_const_true (d : Nat) (p : List Nat → Bool)
    (hp : ∀ a, p a = true) (hd : 0 < d) :
    ∀ (n : Nat) (acc : List Nat), searchFrom d p n acc = some (acc ++ List.replicate n 0) := by
  intro n
  induction n with
  | zero => intro acc; rw [searchFrom]; simp [hp acc]
  | succ n ih =>
    intro acc
    obtain ⟨k, rfl⟩ : ∃ k, d = k + 1 := ⟨d - 1, by omega⟩
    rw [searchFrom, List.range_succ_eq_map, List.findSome?_cons, ih (acc ++ [0])]
    simp [List.replicate_succ]

theorem lex_append_cancel {u v : List Nat} :
    ∀ acc : List Nat, List.Lex (· < ·) (acc ++ u) (acc ++ v) → List.Lex (· < ·) u v := by
  intro acc
  induction acc with
  | nil => exact fun h => h
  | cons a as ih =>
    intro h
    rw [List.cons_append, List.cons_append, List.Lex.cons_iff] at h
    exact ih h

theorem lex_irrefl : ∀ l : List Nat, ¬ List.Lex (· < ·) l l := by
  intro l
  induction l with
  | nil => exact List.Lex.not_nil_right _ _
  | cons a as ih => rw [List.Lex.cons_iff]; exact ih

theorem not_lex_replicate_zero :
    ∀ (n : Nat) (l : List Nat), l.length = n → ¬ List.Lex (· < ·) l (List.replicate n 0) := by
  intro n
  induction n with
  | zero => intro l _; exact List.Lex.not_nil_right _ _
  | succ n ih =>
    intro l hl
    cases l with
    | nil => simp at hl
    | cons x xs =>
      rw [List.replicate_succ]
      intro h
      cases h with
      | rel hr => exact Nat.not_lt_zero x hr
      | cons hc => exact ih xs (by simpa using hl) hc

theorem findSome?_range'_decomp {β : Type} (f : Nat → Option β) :
    ∀ (k s : Nat) (b : β), (List.range' s k).findSome? f = some b →
      ∃ i, s ≤ i ∧ i < s + k ∧ f i = some b ∧ ∀ j, s ≤ j → j < i → f j = none := by
  intro k
  induction k with
  | zero => intro s b h; simp [List.range'] at h
  | succ k ih =>
    intro s b h
    rw [List.range'_succ s k 1, List.findSome?_cons] at h
    cases hfs : f s with
    | some c =>
      rw [hfs] at h
      refine ⟨s, Nat.le_refl s, by omega, by rw [hfs]; exact h, ?_⟩
      intro j hj hjs
      omega
    | none =>
      rw [hfs] at h
      obtain ⟨i, hsi, hik, hfi, hnone⟩ := ih (s + 1) b h
      refine ⟨i, by omega, by omega, hfi, ?_⟩
      intro j hj hji
      rcases Nat.eq_or_lt_of_le hj with heq | hlt
      · rw [← heq]; exact hfs
      · exact hnone j hlt hji

theorem searchFrom_lexmin (d : Nat) (p : List Nat → Bool) :
    ∀ (n : Nat) (acc a : List Nat), searchFrom d p n acc = some a →
      ∀ suf, suf.length = n → (∀ x ∈ suf, x < d) → p (acc ++ suf) = true →
        ¬ List.Lex (· < ·) (acc ++ suf) a := by
  intro n
  induction n with
  | zero =>
    intro acc a h suf hlen _ _
    rw [searchFrom] at h
    rw [List.length_eq_zero.mp hlen, List.append_nil]
    by_cases hp : p acc
    · simp [hp] at h; rw [← h]; exact lex_irrefl acc
    · simp [hp] at h
  | succ n ih =>
    intro acc a h suf hlen hbound hp
    rw [searchFrom, List.range_eq_range' d] at h
    obtain ⟨i₀, -, hi₀d, hf, hnone⟩ := findSome?_range'_decomp _ d 0 a h
    cases suf with
    | nil => simp at hlen
    | cons s suf =>
      have hs : s < d := hbound s (by simp)
      intro hlex
      rcases Nat.lt_trichotomy s i₀ with hlt | heq | hgt
      · have hsn : searchFrom d p n (acc ++ [s]) = none := hnone s (Nat.zero_le s) hlt
        have := searchFrom_none d p n (acc ++ [s]) hsn suf (by simpa using hlen)
          (fun x hx => hbound x (List.mem_cons_of_mem s hx))
        rw [List.append_assoc] at this
        rw [List.singleton_append] at this
        rw [hp] at this
        cases this
      · subst heq
        have := ih (acc ++ [s]) a hf suf (by simpa using hlen)
          (fun x hx => hbound x (List.mem_cons_of_mem s hx))
          (by rw [List.append_assoc, List.singleton_append]; exact hp)
        rw [List.append_assoc, List.singleton_append] at this
        exact this hlex
      · obtain ⟨-, rest, hrest, -, -⟩ := searchFrom_sound d p n (acc ++ [i₀]) a hf
        rw [hrest, List.append_assoc, List.singleton_append] at hlex
        have hl2 := lex_append_cancel acc hlex
        cases hl2 with
        | rel hr => omega
        | cons hc => omega

theorem prunedFrom_none (d : Nat) (g : List Nat → Nat → Bool) (p : List Nat → Bool)
    (hg : ∀ acc suf, 0 < suf.length → p (acc ++ suf) = true → g acc suf.length = true) :
    ∀ (n : Nat) (acc : List Nat), prunedFrom d g p n acc = none →
      ∀ suf, suf.length = n → (∀ x ∈ suf, x < d) → p (acc ++ suf) = false := by
  intro n
  induction n with
  | zero =>
    intro acc h suf hlen _
    rw [prunedFrom] at h
    rw [List.length_eq_zero.mp hlen, List.append_nil]
    by_cases hp : p acc
    · simp [hp] at h
    · simpa using hp
  | succ n ih =>
    intro acc h suf hlen hbound
    rw [prunedFrom] at h
    by_cases hgd : g acc (n + 1) = true
    · rw [if_pos hgd] at h
      cases suf with
      | nil => simp at hlen
      | cons s suf =>
        have hs : s < d := hbound s (by simp)
        have hrec : prunedFrom d g p n (acc ++ [s]) = none :=
          (List.findSome?_eq_none_iff.mp h) s (List.mem_range.mpr hs)
        have := ih (acc ++ [s]) hrec suf (by simpa using hlen)
          (fun x hx => hbound x (List.mem_cons_of_mem s hx))
        simpa [List.append_assoc] using this
    · cases hps : p (acc ++ suf) with
      | false => rfl
      | true =>
        have := hg acc suf (by omega) hps
        rw [hlen] at this
        exact absurd this hgd

/-- Engine state after adding the six warm-up restrictions. -/
def euler : Mastermind := ⟨10, 5, eulerRestrs⟩

/-- Predicate for the uniqueness check of the warm-up instance: an
assignment satisfying the six restrictions other than the known answer. -/
def eulerExcl (a : List Nat) : Bool :=
  euler.satAll a && !(a == [3, 9, 5, 4, 2])

theorem boundsOK_of_sat (restrs : List (List Nat × Int)) (acc suf : List Nat)
    (hsat : restrs.all (satisfies (acc ++ suf)) = true) :
    boundsOK restrs acc suf.length = true := by
  rw [boundsOK, List.all_eq_true]
  intro c hc
  have hs := (List.all_eq_true.mp hsat) c hc
  rw [satisfies, beq_iff_eq] at hs
  rw [countMatches_append] at hs
  have hextra : countMatches suf (c.1.drop acc.length) ≤ suf.length :=
    countMatches_le_length_left _ _
  rw [Bool.and_eq_true, decide_eq_true_eq, decide_eq_true_eq]
  constructor <;> [skip; skip] <;> push_cast at hs ⊢ <;> omega

set_option maxHeartbeats 4000000 in
theorem euler_excl_scan :
    prunedFrom 10 (boundsOK eulerRestrs) eulerExcl 5 [] = none := by decide

theorem euler_unique (a : List Nat) (hl : a.length = 5) (hb : ∀ x ∈ a, x < 10)
    (hs : euler.satAll a = true) : a = [3, 9, 5, 4, 2] := by
  have hg : ∀ acc suf, 0 < suf.length → eulerExcl (acc ++ suf) = true →
      boundsOK eulerRestrs acc suf.length = true := by
    intro acc suf _ hp
    rw [eulerExcl, Bool.and_eq_true] at hp
    exact boundsOK_of_sat eulerRestrs acc suf hp.1
  have hfalse := prunedFrom_none 10 (boundsOK eulerRestrs) eulerExcl hg 5 []
    euler_excl_scan a hl hb
  rw [List.nil_append] at hfalse
  rw [eulerExcl] at hfalse
  rw [hs, Bool.true_and] at hfalse
  simpa using hfalse

theorem sum_indicator_eq_filter_length (q : Nat → Bool) :
    ∀ l : List Nat, ((l.map fun i => if q i then 1 else 0).sum : Nat) = (l.filter q).length := by
  intro l
  induction l with
  | nil => simp
  | cons a as ih => by_cases h : q a <;> simp [h, ih, Nat.add_comm]

theorem flatMap_singleton_blocks (colList : Nat → List Nat) :
    ∀ js : List Nat, (∀ j ∈ js, (colList j).length = 1) →
      js.flatMap colList = js.map fun j => (colList j).headD 0 := by
  intro js
  induction js with
  | nil => intro _; simp
  | cons j js ih =>
    intro h
    have hj : (colList j).length = 1 := h j (by simp)
    have hcol : colList j = [(colList j).headD 0] := by
      cases hc : colList j with
      | nil => rw [hc] at hj; simp at hj
      | cons e es =>
        rw [hc] at hj
        simp only [List.length_cons, Nat.add_left_eq_self, List.length_eq_zero] at hj
        subst hj
        rfl
    calc (j :: js).flatMap colList = colList j ++ js.flatMap colList := by
          rw [List.flatMap_cons]
      _ = [(colList j).headD 0] ++ js.map (fun j => (colList j).headD 0) := by
          rw [← hcol, ih (fun a ha => h a (List.mem_cons_of_mem j ha))]
      _ = (j :: js).map (fun j => (colList j).headD 0) := by simp

theorem headD_mem_of_length_one (l : List Nat) (h : l.length = 1) : l.headD 0 ∈ l := by
  cases l with
  | nil => simp at h
  | cons e es => simp

/-- Claim C1: every assignment returned by search() as a Found result
satisfies the exact-match formula for every stored constraint: for each
stored pair (g, hit), the number of positions where the assignment and g
agree is exactly hit; no Found result is returned otherwise. -/
theorem found_satisfies_all_constraints (m : Mastermind) (a : List Nat)
    (h : m.search = .Found a) :
    ∀ g hit, (g, hit) ∈ m.restrs → (countMatches a g : Int) = hit := by
  obtain ⟨hsat, -, -⟩ := search_found_sound m a h
  intro g hit hmem
  have := (List.all_eq_true.mp hsat) (g, hit) hmem
  rw [satisfies] at this
  exact beq_iff_eq.mp this

/-- Witness for C1 at the engine with d = 2, n = 2 and the single
constraint (guess [0, 1], hit 1): search finds [0, 0], and the theorem
yields its exact-match count against the stored guess. -/
theorem found_satisfies_all_constraints_witness :
    Mastermind.search ⟨2, 2, [([0, 1], 1)]⟩ = .Found [0, 0] ∧
    (countMatches [0, 0] [0, 1] : Int) = 1 :=
  ⟨by decide,
   found_satisfies_all_constraints ⟨2, 2, [([0, 1], 1)]⟩ [0, 0] (by decide)
     [0, 1] 1 (by decide)⟩

/-- Claim C2: whenever the accumulated constraints are mutually
contradictory (no assignment of the right length over the alphabet
satisfies them all), search() returns the definitive NoSolution outcome,
which is distinct from SearchAborted; in particular for d = 2, n = 1
with constraints ([0], 1) and ([0], 0) search() returns NoSolution. -/
theorem contradictory_gives_noSolution :
    (∀ m : Mastermind,
        (∀ b, b.length = m.length → (∀ x ∈ b, x < m.digits) → m.satAll b = false) →
        m.search = .NoSolution) ∧
    Mastermind.addAll ⟨2, 1, []⟩ [([0], 1), ([0], 0)] = some ⟨2, 1, [([0], 1), ([0], 0)]⟩ ∧
    Mastermind.search ⟨2, 1, [([0], 1), ([0], 0)]⟩ = .NoSolution ∧
    SearchResult.NoSolution ≠ SearchResult.SearchAborted :=
  ⟨search_noSolution_of_infeasible, by decide, by decide, by decide⟩

/-- Witness for C2: the general part of the theorem applied to the
concrete contradictory engine of the claim, with its infeasibility
hypothesis discharged explicitly. -/
theorem contradictory_gives_noSolution_witness :
    Mastermind.search ⟨2, 1, [([0], 1), ([0], 0)]⟩ = .NoSolution := by
  apply contradictory_gives_noSolution.1
  intro b hlen hb
  match b, hlen with
  | [x], _ =>
    by_cases hx : x = 0 <;>
      simp [Mastermind.satAll, satisfies, countMatches, hx]

/-- Claim C3 counterexample: addConstraint([0, 1], 5) on an engine with
n = 2 does not fail with InvalidMatchCount; the source's add_restr
succeeds and stores the constraint even though 5 exceeds n. -/
theorem add_restr_no_validation_cex :
    Mastermind.add_restr ⟨2, 2, []⟩ [0, 1] 5 = some ⟨2, 2, [([0, 1], 5)]⟩ := by decide

/-- Claim C3 amended: add_restr never validates the hit count: whenever
the guess is long enough to index and its first n symbols lie in
[0, d-1] (a short guess raises IndexError and an out-of-range symbol
raises KeyError, with nothing stored), the constraint built from the
first n symbols is stored unconditionally, even for a hit count outside
[0, n]; such a hit count makes the stored set infeasible, so the
violation only surfaces later, when search() returns NoSolution, not at
insertion time. -/
theorem add_restr_no_validation (m : Mastermind) (pswd : List Nat) (hit : Int)
    (hp : m.length ≤ pswd.length)
    (hsym : ∀ x ∈ pswd.take m.length, x < m.digits) :
    m.add_restr pswd hit =
      some { m with restrs := m.restrs ++ [(pswd.take m.length, hit)] } ∧
    ((hit < 0 ∨ (m.length : Int) < hit) →
      ∀ m2, m.add_restr pswd hit = some m2 → m2.search = .NoSolution) := by
  have hstore : m.add_restr pswd hit =
      some { m with restrs := m.restrs ++ [(pswd.take m.length, hit)] } := by
    rw [Mastermind.add_restr, if_pos ⟨hp, hsym⟩]
  refine ⟨hstore, ?_⟩
  intro hout m2 hadd
  rw [hstore] at hadd
  cases hadd
  apply search_noSolution_of_infeasible
  intro b hblen _
  rw [Mastermind.satAll, List.all_eq_false]
  refine ⟨(pswd.take m.length, hit), by simp, ?_⟩
  rw [satisfies]
  simp only [Bool.not_eq_true, beq_eq_false_iff_ne, ne_eq]
  have hblen2 : b.length = m.length := hblen
  have hc1 := countMatches_le_length_left b (pswd.take m.length)
  intro heq
  rw [← heq] at hout
  rcases hout with hneg | hbig
  · omega
  · omega

/-- Witness for C3 at the claim's own input: the call with hit count 5 on
an engine with n = 2 succeeds and stores the constraint, and search on
the resulting engine reports infeasibility. -/
theorem add_restr_no_validation_witness :
    Mastermind.add_restr ⟨2, 2, []⟩ [0, 1] 5 = some ⟨2, 2, [([0, 1], 5)]⟩ ∧
    Mastermind.search ⟨2, 2, [([0, 1], 5)]⟩ = .NoSolution := by
  have h := add_restr_no_validation ⟨2, 2, []⟩ [0, 1] 5 (by decide) (by decide)
  exact ⟨h.1, h.2 (by decide) ⟨2, 2, [([0, 1], 5)]⟩ h.1⟩

/-- Claim C4: with d = 10 and n = 5, after adding exactly the six warm-up
constraints (90342, 2), (70794, 0), (39458, 2), (34109, 1), (51545, 2),
(12531, 1), search() returns Found [3, 9, 5, 4, 2], and no other
assignment over the alphabet satisfies all six constraints. -/
theorem euler_end_to_end :
    Mastermind.addAll ⟨10, 5, []⟩ eulerRestrs = some euler ∧
    euler.search = .Found [3, 9, 5, 4, 2] ∧
    ∀ a, a.length = 5 → (∀ x ∈ a, x < 10) → euler.satAll a = true →
      a = [3, 9, 5, 4, 2] := by
  refine ⟨by decide, ?_, euler_unique⟩
  obtain ⟨a, ha⟩ := search_found_of_feasible euler [3, 9, 5, 4, 2]
    (by decide) (by decide) (by decide)
  obtain ⟨hsat, hlen, hb⟩ := search_found_sound euler a ha
  rw [euler_unique a hlen hb hsat] at ha
  exact ha

/-- Witness for C4: the uniqueness part applied at the answer itself, with
every hypothesis evaluated on the concrete input. -/
theorem euler_end_to_end_witness :
    List.length [3, 9, 5, 4, 2] = 5 ∧ (∀ x ∈ [3, 9, 5, 4, 2], x < 10) ∧
    euler.satAll [3, 9, 5, 4, 2] = true ∧ [3, 9, 5, 4, 2] = [3, 9, 5, 4, 2] :=
  ⟨by decide, by decide, by decide,
   euler_end_to_end.2.2 [3, 9, 5, 4, 2] (by decide) (by decide) (by decide)⟩

/-- Claim C5: for every d at least 1 and n at least 1, search() on an
engine with an empty constraint set returns Found with the all-zero
assignment, which is lexicographically least among length-n
assignments. -/
theorem empty_constraints_found_zeros (d n : Nat) (hd : 1 ≤ d) (_hn : 1 ≤ n) :
    Mastermind.search ⟨d, n, []⟩ = .Found (List.replicate n 0) ∧
    ∀ b : List Nat, b.length = n → ¬ List.Lex (· < ·) b (List.replicate n 0) := by
  constructor
  · rw [Mastermind.search]
    have h : searchFrom d (Mastermind.satAll ⟨d, n, []⟩) n [] =
        some ([] ++ List.replicate n 0) :=
      searchFrom_const_true d _ (fun a => rfl) hd n []
    rw [h]
    simp
  · exact fun b hb => not_lex_replicate_zero n b hb

/-- Witness for C5 at d = 2, n = 3. -/
theorem empty_constraints_found_zeros_witness :
    Mastermind.search ⟨2, 3, []⟩ = .Found (List.replicate 3 0) ∧
    ¬ List.Lex (· < ·) [0, 1, 0] (List.replicate 3 0) :=
  ⟨(empty_constraints_found_zeros 2 3 (by decide) (by decide)).1,
   (empty_constraints_found_zeros 2 3 (by decide) (by decide)).2 [0, 1, 0] (by decide)⟩

/-- Claim C6: search() is deterministic: engines holding identical
dimensions and identical constraint sets return the identical result
(search also mutates nothing, so repeated calls agree); and a Found
assignment is feasible and lexicographically least among the feasible
assignments under the symbol ordering. -/
theorem search_deterministic_lexmin :
    (∀ m₁ m₂ : Mastermind, m₁.digits = m₂.digits → m₁.length = m₂.length →
        m₁.restrs = m₂.restrs → m₁.search = m₂.search) ∧
    ∀ (m : Mastermind) (a : List Nat), m.search = .Found a →
      m.satAll a = true ∧
      ∀ b, b.length = m.length → (∀ x ∈ b, x < m.digits) → m.satAll b = true →
        ¬ List.Lex (· < ·) b a := by
  constructor
  · intro m₁ m₂ h1 h2 h3
    cases m₁
    cases m₂
    cases h1
    cases h2
    cases h3
    rfl
  · intro m a h
    have hsound := search_found_sound m a h
    refine ⟨hsound.1, ?_⟩
    intro b hlen hb hsat
    rw [Mastermind.search] at h
    cases hs : searchFrom m.digits m.satAll m.length [] with
    | none => rw [hs] at h; cases h
    | some c =>
      rw [hs] at h
      cases h
      have := searchFrom_lexmin m.digits m.satAll m.length [] a hs b hlen hb
        (by rw [List.nil_append]; exact hsat)
      rwa [List.nil_append] at this

/-- Witness for C6: on the engine with d = 2, n = 2 and constraint
([0, 1], 1), search finds [0, 0]; the feasible assignment [1, 1] is not
lexicographically below it. -/
theorem search_deterministic_lexmin_witness :
    ¬ List.Lex (· < ·) [1, 1] [0, 0] :=
  (search_deterministic_lexmin.2 ⟨2, 2, [([0, 1], 1)]⟩ [0, 0] (by decide)).2
    [1, 1] (by decide) (by decide) (by decide)

/-- Claim C7: adding a constraint that a previously returned Found
assignment itself satisfies keeps the constraint set feasible: a
subsequent search() still returns Found. -/
theorem add_satisfied_keeps_found (m m2 : Mastermind) (A pswd : List Nat) (hit : Int)
    (hA : m.search = .Found A)
    (hadd : m.add_restr pswd hit = some m2)
    (hsat : satisfies A (pswd.take m.length, hit) = true) :
    ∃ B, m2.search = .Found B := by
  obtain ⟨hall, hlen, hb⟩ := search_found_sound m A hA
  rw [Mastermind.add_restr] at hadd
  by_cases hp : m.length ≤ pswd.length ∧ ∀ x ∈ pswd.take m.length, x < m.digits
  · rw [if_pos hp] at hadd
    cases hadd
    refine search_found_of_feasible _ A ?_ ?_ ?_
    · exact hlen
    · exact hb
    · rw [Mastermind.satAll] at hall ⊢
      rw [List.all_append, hall, Bool.true_and]
      simpa using hsat
  · rw [if_neg hp] at hadd
    cases hadd

/-- Witness for C7: the engine with d = 2, n = 1 and no constraints finds
[0]; adding the constraint ([0], 1), which [0] satisfies, keeps search
feasible. -/
theorem add_satisfied_keeps_found_witness :
    ∃ B, Mastermind.search ⟨2, 1, [([0], 1)]⟩ = .Found B :=
  add_satisfied_keeps_found ⟨2, 1, []⟩ ⟨2, 1, [([0], 1)]⟩ [0] [0] 1
    (by decide) (by decide) (by decide)

/-- Claim C8: new_guess never propagates an exception to its caller: the
bare except handler turns any exception raised by the body into the
return value False, so every call returns a value. -/
theorem new_guess_never_raises :
    (∀ body : PyOutcome GuessVal, ∃ v, tryExceptFalse body = .ret v) ∧
    tryExceptFalse .exn = .ret (.bool false) := by
  refine ⟨?_, rfl⟩
  intro body
  cases body with
  | ret v => exact ⟨v, rfl⟩
  | exn => exact ⟨.bool false, rfl⟩

/-- Claim C9 counterexample: the guess [5, 0] is longer than n = 1 on an
engine with d = 2, yet add_restr does not silently store its first
symbol: X has no key 5, so the source raises KeyError (modelled as
none) and no constraint is stored. -/
theorem add_restr_out_of_range_cex :
    Mastermind.add_restr ⟨2, 1, []⟩ [5, 0] 0 = none := by decide

/-- Claim C9 amended: for a guess longer than n whose first n symbols lie
in [0, d-1], add_restr silently stores the constraint built from the
guess's first n symbols only, with no error; any guess agreeing on
those first n symbols produces the identical call result, so the
trailing symbols (even out-of-range ones) have no effect; a guess whose
first n symbols include an out-of-range symbol instead raises KeyError
and stores nothing. -/
theorem add_restr_uses_first_n (m : Mastermind) (pswd : List Nat) (hit : Int)
    (hlong : m.length < pswd.length)
    (hsym : ∀ x ∈ pswd.take m.length, x < m.digits) :
    m.add_restr pswd hit =
      some { m with restrs := m.restrs ++ [(pswd.take m.length, hit)] } ∧
    ∀ q : List Nat, m.length ≤ q.length → q.take m.length = pswd.take m.length →
      m.add_restr q hit = m.add_restr pswd hit := by
  constructor
  · rw [Mastermind.add_restr, if_pos ⟨Nat.le_of_lt hlong, hsym⟩]
  · intro q hq htake
    rw [Mastermind.add_restr, Mastermind.add_restr, htake,
      if_pos ⟨hq, hsym⟩, if_pos ⟨Nat.le_of_lt hlong, hsym⟩]

/-- Witness for C9 with n = 1 and the two-symbol guess [0, 1]: only [0] is
stored, and replacing the unused trailing symbol leaves the call result
unchanged. -/
theorem add_restr_uses_first_n_witness :
    Mastermind.add_restr ⟨2, 1, []⟩ [0, 1] 0 = some ⟨2, 1, [([0], 0)]⟩ ∧
    Mastermind.add_restr ⟨2, 1, []⟩ [0, 5] 0 = Mastermind.add_restr ⟨2, 1, []⟩ [0, 1] 0 :=
  ⟨(add_restr_uses_first_n ⟨2, 1, []⟩ [0, 1] 0 (by decide) (by decide)).1,
   (add_restr_uses_first_n ⟨2, 1, []⟩ [0, 1] 0 (by decide) (by decide)).2 [0, 5]
     (by decide) (by decide)⟩

/-- Claim C10: under the exactly-one-symbol-per-position column equalities
installed at construction, any integer-feasible solution makes the
suggestion built by new_guess encode exactly n symbols, one per
position, each lying in [0, d-1], and the symbol written for position j
is the one whose indicator is set at j. -/
theorem suggestion_wellformed (x : Nat → Nat → Bool) (d n : Nat)
    (hcol : ∀ j, j < n → colSumOne x d j) :
    (buildSuggestion x d n).length = n ∧
    (∀ s ∈ buildSuggestion x d n, s < d) ∧
    ∀ j, j < n → (buildSuggestion x d n).getD j 0 < d ∧
      x ((buildSuggestion x d n).getD j 0) j = true := by
  have h1 : ∀ j ∈ List.range n, ((List.range d).filter fun i => x i j).length = 1 := by
    intro j hj
    have hc := hcol j (List.mem_range.mp hj)
    rw [colSumOne, sum_indicator_eq_filter_length (fun i => x i j) (List.range d)] at hc
    exact hc
  have heq : buildSuggestion x d n =
      (List.range n).map fun j => ((List.range d).filter fun i => x i j).headD 0 := by
    rw [buildSuggestion]
    exact flatMap_singleton_blocks _ (List.range n) h1
  have hmem : ∀ j, j < n →
      ((List.range d).filter fun i => x i j).headD 0 ∈
        (List.range d).filter fun i => x i j := by
    intro j hj
    exact headD_mem_of_length_one _ (h1 j (List.mem_range.mpr hj))
  have hprops : ∀ j, j < n →
      ((List.range d).filter fun i => x i j).headD 0 < d ∧
      x (((List.range d).filter fun i => x i j).headD 0) j = true := by
    intro j hj
    have hm := List.mem_filter.mp (hmem j hj)
    exact ⟨List.mem_range.mp hm.1, hm.2⟩
  have hget : ∀ j, j < n → (buildSuggestion x d n).getD j 0 =
      ((List.range d).filter fun i => x i j).headD 0 := by
    intro j hj
    rw [heq, List.getD_eq_getElem?_getD, List.getElem?_map, List.getElem?_range hj]
    rfl
  refine ⟨by rw [heq]; simp, ?_, ?_⟩
  · intro s hs
    rw [heq] at hs
    obtain ⟨j, hj, rfl⟩ := List.mem_map.mp hs
    exact (hprops j (List.mem_range.mp hj)).1
  · intro j hj
    rw [hget j hj]
    exact hprops j hj

instance (x : Nat → Nat → Bool) (d j : Nat) : Decidable (colSumOne x d j) :=
  inferInstanceAs (Decidable ((((List.range d).map fun i => if x i j then 1 else 0).sum : Nat) = 1))

/-- Witness for C10 on the concrete feasible solution x i j = (i == j)
with d = 2, n = 2: the suggestion has one symbol per position, in
range, with its indicator set. -/
theorem suggestion_wellformed_witness :
    (buildSuggestion (fun i j => i == j) 2 2).length = 2 ∧
    (∀ s ∈ buildSuggestion (fun i j => i == j) 2 2, s < 2) ∧
    ∀ j, j < 2 → (buildSuggestion (fun i j => i == j) 2 2).getD j 0 < 2 ∧
      (fun i j => i == j) ((buildSuggestion (fun i j => i == j) 2 2).getD j 0) j = true :=
  suggestion_wellformed (fun i j => i == j) 2 2 (by decide)
